import Mathlib

/-!
Shallow embedding of the trigger/connection/playback engine of the Midi_Viz
repository (src/src/models/WaveformNode.js, HTrigger.js, Port.js,
the Connection class in RecordingManager.js, Node.js, and the duplicate
logic in src/src/controllers/InteractionController.js).

JavaScript numbers are modelled as rationals (ℚ); the claims under
verification are about exact value-level relationships, clamping, rounding
and set manipulation, none of which depend on float rounding. Timing
(performance.now) is abstracted: playback progress values are supplied
directly to the tick functions, exactly as `update` supplies
`this.playProgress` to `_updateTriggerPorts`.
-/

namespace MidiViz

/-- `clamp` from src/utils/geometry.js: `Math.min(Math.max(value, min), max)`. -/
def clamp (value lo hi : ℚ) : ℚ := min (max value lo) hi

/-- JavaScript `Math.round` for non-negative inputs: round half away from zero,
i.e. `⌊q + 1/2⌋`. -/
def jsRound (q : ℚ) : ℤ := ⌊q + 1/2⌋

/-- `PIXELS_PER_SECOND` from src/config/constants.js. -/
def PIXELS_PER_SECOND : ℚ := 100

/-- `CC_MAX_VALUE` from src/config/constants.js. -/
def CC_MAX_VALUE : ℚ := 127

/-- `BOX_W` from src/config/constants.js (default node width). -/
def BOX_W : ℚ := 200

/-- `BOX_H` from src/config/constants.js (default node height). -/
def BOX_H : ℚ := 80

/-! ## HTrigger (src/src/models/HTrigger.js)

Only the crossing-detection state is data; ports are modelled separately. -/

/-- The crossing type returned by `HTrigger.checkCrossing`. -/
inductive CrossingType
  | up
  | down
  deriving DecidableEq, Repr

/-- The crossing record `{type, threshold, fromValue, toValue}` returned by
`HTrigger.checkCrossing`. -/
structure Crossing where
  type : CrossingType
  threshold : ℚ
  fromValue : ℚ
  toValue : ℚ
  deriving DecidableEq, Repr

/-- `HTrigger`: normalized vertical position `v` (clamped to [0,1] at
construction) and the crossing-detection memory `lastValue`
(null ↦ `none`). -/
structure HTrigger where
  v : ℚ
  lastValue : Option ℚ
  deriving DecidableEq, Repr

/-- `HTrigger` constructor: clamps `v` and starts with `lastValue = null`. -/
def mkHTrigger (vNorm : ℚ) : HTrigger :=
  { v := clamp vNorm 0 1, lastValue := none }

/-- `HTrigger.getThresholdLevel()`: `1 - v`. -/
def HTrigger.getThresholdLevel (h : HTrigger) : ℚ := 1 - h.v

/-- `HTrigger.checkCrossing(currentValue)` — returns the detected crossing (if
any) together with the updated trigger (the JS method mutates `lastValue`). -/
def HTrigger.checkCrossing (h : HTrigger) (currentValue : ℚ) :
    Option Crossing × HTrigger :=
  match h.lastValue with
  | none => (none, { h with lastValue := some currentValue })
  | some prev =>
    let threshold := h.getThresholdLevel
    let curr := currentValue
    let crossingType : Option CrossingType :=
      if prev < threshold ∧ curr ≥ threshold then some .up
      else if prev > threshold ∧ curr ≤ threshold then some .down
      else none
    let h1 := { h with lastValue := some currentValue }
    match crossingType with
    | some ty => (some ⟨ty, threshold, prev, curr⟩, h1)
    | none => (none, h1)

/-- `HTrigger.resetCrossingState()`: `lastValue = null`. -/
def HTrigger.resetCrossingState (h : HTrigger) : HTrigger :=
  { h with lastValue := none }

/-! ## VTrigger (src/src/models/WaveformNode.js companion file VTrigger.js) -/

/-- `VTrigger`: normalized horizontal position `u` (clamped to [0,1] at
construction). Its ports are modelled separately for the connection layer. -/
structure VTrigger where
  u : ℚ
  deriving DecidableEq, Repr

/-- `VTrigger` constructor: clamps `u` to [0,1]. -/
def mkVTrigger (uNorm : ℚ) : VTrigger :=
  { u := clamp uNorm 0 1 }

/-! ## WaveformNode (src/src/models/WaveformNode.js, base class Node.js) -/

/-- Fold a run of decimal digit characters into a natural number
(`parseInt(digits, 10)`). -/
def digitsToNat (ds : List Char) : ℕ :=
  ds.foldl (fun acc c => acc * 10 + (c.toNat - '0'.toNat)) 0

/-- Scan for the regex `/CC\s*(\d+)/i` of `WaveformNode._parseCC`: the first
occurrence of `CC` (case-insensitive) followed by optional whitespace and at
least one digit yields the digit run. -/
def findCCNum : List Char → Option ℕ
  | [] => none
  | c :: rest =>
    if c = 'C' ∨ c = 'c' then
      match rest with
      | c2 :: rest2 =>
        if c2 = 'C' ∨ c2 = 'c' then
          let ds := (rest2.dropWhile Char.isWhitespace).takeWhile Char.isDigit
          if ds.isEmpty then findCCNum rest else some (digitsToNat ds)
        else findCCNum rest
      | [] => none
    else findCCNum rest

/-- `WaveformNode._parseCC(label)`: extract the CC number from the label,
default 1, clamped to [0, 127]. -/
def parseCC (label : String) : ℚ :=
  match findCCNum label.toList with
  | some n => clamp n 0 127
  | none => clamp 1 0 127

/-- The state of a `WaveformNode` relevant to the playback/trigger engine.
`vTriggersHit` models the JS `Set` `_vTriggersHitThisPlayback` of trigger
indices; `playing` comes from the base `Node` class. The timing fields
(`playStartTime`) and purely visual fields are omitted: progress values are
fed to the tick functions directly. -/
structure WaveformNode where
  x : ℚ
  y : ℚ
  w : ℚ
  h : ℚ
  label : String
  samples : List ℚ
  cc : ℚ
  sourceDeviceName : String
  playing : Bool
  playProgress : ℚ
  startProgress : ℚ
  durationMs : ℚ
  remainingDurationMs : ℚ
  lastCCSent : ℚ
  vTriggers : List VTrigger
  hTriggers : List HTrigger
  vTriggersHit : Finset ℕ
  deriving DecidableEq

/-- `WaveformNode._computeRunDuration()`:
`Math.max(1, (w / PIXELS_PER_SECOND) * 1000)`. -/
def computeRunDuration (w : ℚ) : ℚ :=
  max 1 (w / PIXELS_PER_SECOND * 1000)

/-- The `WaveformNode` constructor. The base `Node` constructor sets
`w = BOX_W`, `h = BOX_H`; a truthy `width` argument overrides `w`
(`if (width) this.w = width`). The `samples` argument is taken as given (the
claims under study never exercise the `null → generateSine` default, which
produces irrational values outside this model). -/
def mkWaveformNode (x y : ℚ) (label : String) (samples : List ℚ)
    (width : Option ℚ) : WaveformNode :=
  let w : ℚ :=
    match width with
    | some wv => if wv ≠ 0 then wv else BOX_W
    | none => BOX_W
  { x := x
    y := y
    w := w
    h := BOX_H
    label := label
    samples := samples
    cc := parseCC label
    sourceDeviceName := ""
    playing := false
    playProgress := 0
    startProgress := 0
    durationMs := computeRunDuration w
    remainingDurationMs := computeRunDuration w
    lastCCSent := -1
    vTriggers := []
    hTriggers := []
    vTriggersHit := ∅ }

/-- `WaveformNode.valueAt(t)`: clamp `t`, linearly interpolate between the two
adjacent samples at `clamp(t,0,1) * (n-1)`; the upper index is capped at
`n-1`. Out-of-range accesses (provably absent for `n ≥ 1`) default to 0. -/
def valueAt (samples : List ℚ) (t : ℚ) : ℚ :=
  let normalizedT := clamp t 0 1
  let n := samples.length
  let pos := normalizedT * ((n : ℚ) - 1)
  let i : ℕ := (⌊pos⌋).toNat
  let f := pos - (i : ℚ)
  let a := samples.getD i 0
  let b := samples.getD (min (i + 1) (n - 1)) 0
  a + (b - a) * f

/-- `Node.startPlayback()` (base class, src/unnamed/part_003): no-op when
already playing, otherwise `playing = true` (the timestamp is external). -/
def baseStartPlayback (n : WaveformNode) : WaveformNode :=
  if n.playing then n else { n with playing := true }

/-- `Node.stopPlayback()` (base class): no-op when idle, otherwise
`playing = false`. -/
def stopPlayback (n : WaveformNode) : WaveformNode :=
  if n.playing then { n with playing := false } else n

/-- `WaveformNode.startPlayback()`: returns unchanged when `playing`
(`if (this.playing) return`); otherwise resets the playback cursor, the MIDI
sentinel, the VTrigger fired set and every HTrigger's crossing memory. -/
def WaveformNode.startPlayback (n : WaveformNode) : WaveformNode :=
  if n.playing then n
  else
    let n1 := baseStartPlayback n
    { n1 with
      playProgress := 0
      startProgress := 0
      remainingDurationMs := n1.durationMs
      lastCCSent := -1
      vTriggersHit := ∅
      hTriggers := n1.hTriggers.map HTrigger.resetCrossingState }

/-- `WaveformNode.startPlaybackFromU(u)`: stops a running playback, clamps
`u`, restarts, positions the cursor at `u`, shortens the remaining duration,
pre-marks every VTrigger index with `u_i ≤ u` as already hit, and resets all
HTrigger crossing memory. -/
def WaveformNode.startPlaybackFromU (n : WaveformNode) (u : ℚ) : WaveformNode :=
  let n0 := if n.playing then stopPlayback n else n
  let normalizedU := clamp u 0 1
  let n1 := baseStartPlayback n0
  { n1 with
    playProgress := normalizedU
    startProgress := normalizedU
    remainingDurationMs := max 1 ((1 - normalizedU) * n1.durationMs)
    lastCCSent := -1
    vTriggersHit :=
      (Finset.range n1.vTriggers.length).filter
        (fun i => (n1.vTriggers.getD i ⟨0⟩).u ≤ normalizedU)
    hTriggers := n1.hTriggers.map HTrigger.resetCrossingState }

/-! ## `_updateTriggerPorts` and playback runs -/

/-- The VTrigger half of `WaveformNode._updateTriggerPorts`: iterate the
triggers in index order starting at `k`; when `playProgress ≥ trigger.u` fire
index `k` unless it is already in the hit set (then add it); when
`playProgress < trigger.u` delete `k` from the hit set. Returns the list of
indices whose `fireOutputPort` was invoked this tick, in order, and the
updated hit set. -/
def updateVTriggersAux (p : ℚ) : ℕ → List VTrigger → Finset ℕ →
    List ℕ × Finset ℕ
  | _, [], s => ([], s)
  | k, t :: ts, s =>
    let step : List ℕ × Finset ℕ :=
      if p ≥ t.u then
        if k ∈ s then ([], s) else ([k], insert k s)
      else ([], s.erase k)
    let rest := updateVTriggersAux p (k + 1) ts step.2
    (step.1 ++ rest.1, rest.2)

/-- The HTrigger half of `_updateTriggerPorts`: run `checkCrossing` on each
HTrigger with the current waveform value, collecting the crossings that fire
`fireUpPort`/`fireDownPort` (indexed, in order) and the updated triggers. -/
def updateHTriggersAux (currentValue : ℚ) : ℕ → List HTrigger →
    List (ℕ × CrossingType) × List HTrigger
  | _, [] => ([], [])
  | k, h :: hs =>
    let r := h.checkCrossing currentValue
    let rest := updateHTriggersAux currentValue (k + 1) hs
    let fires :=
      match r.1 with
      | some c => (k, c.type) :: rest.1
      | none => rest.1
    (fires, r.2 :: rest.2)

/-- The result of one `_updateTriggerPorts` tick: the VTrigger indices fired,
the HTrigger crossings fired, and the updated node. -/
structure TickResult where
  vFired : List ℕ
  hFired : List (ℕ × CrossingType)
  node : WaveformNode
  deriving DecidableEq

/-- `WaveformNode._updateTriggerPorts()`: no-op when not playing; otherwise
process all VTriggers against `playProgress` and all HTriggers against the
current waveform value `valueAt(playProgress)`. -/
def updateTriggerPorts (n : WaveformNode) : TickResult :=
  if n.playing then
    let v := updateVTriggersAux n.playProgress 0 n.vTriggers n.vTriggersHit
    let currentValue := valueAt n.samples n.playProgress
    let hres := updateHTriggersAux currentValue 0 n.hTriggers
    { vFired := v.1
      hFired := hres.1
      node := { n with vTriggersHit := v.2, hTriggers := hres.2 } }
  else
    { vFired := [], hFired := [], node := n }

/-- Drive a playback run: for each externally supplied progress value (as the
surrounding `update` computes from elapsed time), set `playProgress` and run
`_updateTriggerPorts`, collecting the VTrigger fire lists tick by tick. -/
def playbackRun (n : WaveformNode) : List ℚ → List (List ℕ) × WaveformNode
  | [] => ([], n)
  | p :: ps =>
    let r := updateTriggerPorts { n with playProgress := p }
    let rest := playbackRun r.node ps
    (r.vFired :: rest.1, rest.2)

/-- Total number of times trigger index `i` fired across the ticks of a run. -/
def countFires (i : ℕ) (runs : List (List ℕ)) : ℕ :=
  (runs.map (fun l => l.count i)).sum

/-! ## Port and Connection (src/unnamed/part_004, Connection class in
src/src/models/RecordingManager.js) -/

/-- The port `type` tag: `'input' | 'output' | 'up' | 'down'`. -/
inductive PortType
  | input
  | output
  | up
  | down
  deriving DecidableEq, Repr

/-- The explicit `role` field of a `Port`: `'in' | 'out'`. -/
inductive Role
  | rin
  | rout
  deriving DecidableEq, Repr

/-- The result of `Connection._getPortRole`: `'in' | 'out' | 'unknown'`. -/
inductive ResolvedRole
  | rin
  | rout
  | unknown
  deriving DecidableEq, Repr

/-- Which trigger class owns the port; determines which fire methods exist on
`this.trigger` (`fireUpPort`/`fireDownPort` on HTrigger,
`triggerInputPort`/`fireOutputPort` on VTrigger). -/
inductive OwnerKind
  | vtrig
  | htrig
  deriving DecidableEq, Repr

/-- A connection endpoint. `pid` models JS object identity (`===`). `role`
and `typ` are optional to model legacy endpoints lacking those fields;
`Port` instances constructed by the current code always carry both. `trigU`
is the owning VTrigger's `u` (used by `triggerInputPort` →
`startPlaybackFromU(this.u)`); `nodeId` identifies the owning node. -/
structure PortR where
  pid : ℕ
  nodeId : ℕ
  ownerKind : OwnerKind
  typ : Option PortType
  role : Option Role
  connectedPortType : Option PortType
  trigU : ℚ
  deriving DecidableEq, Repr

/-- `type`-to-role mapping shared by the fallbacks in
`Connection._getPortRole`: `'input' → in`, `'output'/'up'/'down' → out`. -/
def typeToRole : PortType → ResolvedRole
  | .input => .rin
  | .output => .rout
  | .up => .rout
  | .down => .rout

/-- `Connection._getPortRole(port)`: explicit `role` field first, then the
`type` mapping, then the legacy `_connectedPortType` mapping, else
`'unknown'`. -/
def getPortRole (p : PortR) : ResolvedRole :=
  match p.role with
  | some .rin => .rin
  | some .rout => .rout
  | none =>
    match p.typ with
    | some t => typeToRole t
    | none =>
      match p.connectedPortType with
      | some t => typeToRole t
      | none => .unknown

/-- What firing a target does, for the propagation result. `startFromU u`
stands for `node.startPlaybackFromU(u)` on the target trigger's node
(`Port.fire` → `triggerInputPort` → `triggerPlayback`); `blinkOnly` is a
`fire()` whose dispatch chain matched nothing (only the visual blink ran). -/
inductive FireAction
  | startFromU (u : ℚ)
  | fireUp
  | fireDown
  | fireOutput
  | blinkOnly
  deriving DecidableEq, Repr

/-- `Port.fire()` (src/unnamed/part_004): dispatch on the port's `type`,
guarded by the presence of the corresponding method on the owning trigger. -/
def PortR.fire (p : PortR) : FireAction :=
  if p.typ = some .up ∧ p.ownerKind = .htrig then .fireUp
  else if p.typ = some .down ∧ p.ownerKind = .htrig then .fireDown
  else if p.typ = some .input ∧ p.ownerKind = .vtrig then .startFromU p.trigU
  else if p.typ = some .output ∧ p.ownerKind = .vtrig then .fireOutput
  else .blinkOnly

/-- A `Connection` stores an unordered pair of ports; either may be missing
(`null`). -/
structure Connection where
  portA : Option PortR
  portB : Option PortR
  deriving DecidableEq, Repr

/-- The `Connection` constructor stores the two ports as given; an invalid
pair is only logged, never rejected by a thrown error. -/
def mkConnection (pa pb : Option PortR) : Connection :=
  { portA := pa, portB := pb }

/-- `Connection._isValidConnection()`: both ports present, not identical, and
the resolved roles are exactly one `in` and one `out`. -/
def Connection.isValid (c : Connection) : Bool :=
  match c.portA, c.portB with
  | some pa, some pb =>
    if pa = pb then false
    else
      let roleA := getPortRole pa
      let roleB := getPortRole pb
      decide ((roleA = .rin ∧ roleB = .rout) ∨ (roleA = .rout ∧ roleB = .rin))
  | _, _ => false

/-- `Connection.getOtherPort(port)`. -/
def Connection.getOtherPort (c : Connection) (p : PortR) : Option PortR :=
  if c.portA = some p then c.portB
  else if c.portB = some p then c.portA
  else none

/-- `Connection.propagateFireEvent(sourcePort)`: blocked (`none`, no state
change) unless the source resolves to `out`, the other endpoint exists and
resolves to `in`; then the target `Port.fire()` runs and its action is
returned. -/
def Connection.propagateFireEvent (c : Connection) (sourcePort : PortR) :
    Option FireAction :=
  if getPortRole sourcePort ≠ .rout then none
  else
    match c.getOtherPort sourcePort with
    | none => none
    | some target =>
      if getPortRole target ≠ .rin then none
      else some target.fire

/-! ## Split (WaveformNode.splitAtU / _splitSamplesAtU) -/

/-- Which port of the original trigger a port-map entry describes. -/
inductive PortSel
  | pInput
  | pOutput
  | pUp
  | pDown
  deriving DecidableEq, Repr

/-- The value of a port-map entry: the new trigger(s) owning the mapped
port(s). A boundary VTrigger and every HTrigger map to two new ports (left
copy, right copy); other VTriggers map to a single new port. -/
inductive PMTarget
  | toLeftV (t : VTrigger)
  | toRightV (t : VTrigger)
  | toBothV (l r : VTrigger)
  | toBothH (l r : HTrigger)
  deriving DecidableEq, Repr

/-- One entry of the `portMap` returned by `splitAtU`, keyed by the original
trigger's index and which of its ports is mapped. -/
structure PMEntry where
  idx : ℕ
  sel : PortSel
  target : PMTarget
  deriving DecidableEq, Repr

/-- VTrigger distribution of `splitAtU`, iterating the original triggers in
order (index `k`): `u < split` goes left rescaled to `u/split`; `u > split`
goes right rescaled to `(u-split)/(1-split)`; `u = split` is duplicated at
`1.0` (left) and `0.0` (right) with both ports mapped to both copies. -/
def splitVTriggersAux (nu : ℚ) : ℕ → List VTrigger →
    List VTrigger × List VTrigger × List PMEntry
  | _, [] => ([], [], [])
  | k, t :: ts =>
    let rest := splitVTriggersAux nu (k + 1) ts
    if t.u < nu then
      let newU := if nu = 0 then 0 else t.u / nu
      let nt := mkVTrigger (clamp newU 0 1)
      (nt :: rest.1, rest.2.1,
        ⟨k, .pInput, .toLeftV nt⟩ :: ⟨k, .pOutput, .toLeftV nt⟩ :: rest.2.2)
    else if t.u > nu then
      let newU := (t.u - nu) / (1 - nu)
      let nt := mkVTrigger (clamp newU 0 1)
      (rest.1, nt :: rest.2.1,
        ⟨k, .pInput, .toRightV nt⟩ :: ⟨k, .pOutput, .toRightV nt⟩ :: rest.2.2)
    else
      let lt := mkVTrigger 1
      let rt := mkVTrigger 0
      (lt :: rest.1, rt :: rest.2.1,
        ⟨k, .pInput, .toBothV lt rt⟩ :: ⟨k, .pOutput, .toBothV lt rt⟩ ::
          rest.2.2)

/-- HTrigger distribution of `splitAtU`: every HTrigger is copied in full to
both nodes with unchanged `v`, both ports mapping to both copies. -/
def splitHTriggersAux : ℕ → List HTrigger →
    List HTrigger × List HTrigger × List PMEntry
  | _, [] => ([], [], [])
  | k, h :: hs =>
    let rest := splitHTriggersAux (k + 1) hs
    let lt := mkHTrigger h.v
    let rt := mkHTrigger h.v
    (lt :: rest.1, rt :: rest.2.1,
      ⟨k, .pUp, .toBothH lt rt⟩ :: ⟨k, .pDown, .toBothH lt rt⟩ :: rest.2.2)

/-- `WaveformNode._splitSamplesAtU(u)`: interpolate the value at the split
point, close the left half with it and open the right half with it, then pad
either side to at least 2 samples. -/
def splitSamplesAtU (samples : List ℚ) (u : ℚ) : List ℚ × List ℚ :=
  let n := max 2 samples.length
  let pos := clamp u 0 1 * ((n : ℚ) - 1)
  let i : ℕ := (⌊pos⌋).toNat
  let j : ℕ := min (i + 1) (n - 1)
  let f := pos - (i : ℚ)
  let vSplit := samples.getD i 0 + (samples.getD j 0 - samples.getD i 0) * f
  let left := samples.take (i + 1) ++ [vSplit]
  let right := vSplit :: samples.drop j
  let left := if left.length < 2 then left ++ [left.getLastD 0] else left
  let right := if right.length < 2 then right.headD 0 :: right else right
  (left, right)

/-- The `{leftNode, rightNode, portMap, splitU}` object returned by a
successful `splitAtU`. -/
structure SplitResult where
  leftNode : WaveformNode
  rightNode : WaveformNode
  portMap : List PMEntry
  splitU : ℚ
  deriving DecidableEq

/-- `WaveformNode.splitAtU(u)`: `null` when the clamped split point is within
2% of either edge; otherwise split the samples, compute the two widths
(`max(2, round(w·u))` and `max(2, w - leftWidth)`), build the two nodes with
the same label/cc/source metadata, and distribute the triggers. -/
def WaveformNode.splitAtU (n : WaveformNode) (u : ℚ) : Option SplitResult :=
  let normalizedU := clamp u 0 1
  let EPS : ℚ := 2/100
  if normalizedU ≤ EPS ∨ normalizedU ≥ 1 - EPS then none
  else
    let sp := splitSamplesAtU n.samples normalizedU
    let leftWidth : ℚ := max 2 ((jsRound (n.w * normalizedU) : ℤ) : ℚ)
    let rightWidth : ℚ := max 2 (n.w - leftWidth)
    let leftNode0 := mkWaveformNode n.x n.y n.label sp.1 (some leftWidth)
    let leftNode1 :=
      { leftNode0 with cc := n.cc, sourceDeviceName := n.sourceDeviceName }
    let rightNode0 :=
      mkWaveformNode (n.x + leftWidth) n.y n.label sp.2 (some rightWidth)
    let rightNode1 :=
      { rightNode0 with cc := n.cc, sourceDeviceName := n.sourceDeviceName }
    let vsp := splitVTriggersAux normalizedU 0 n.vTriggers
    let hsp := splitHTriggersAux 0 n.hTriggers
    some
      { leftNode := { leftNode1 with vTriggers := vsp.1, hTriggers := hsp.1 }
        rightNode :=
          { rightNode1 with vTriggers := vsp.2.1, hTriggers := hsp.2.1 }
        portMap := vsp.2.2 ++ hsp.2.2
        splitU := normalizedU }

/-! ## Duplicate (InteractionController._createNodeDuplicate) -/

/-- `InteractionController._createNodeDuplicate(node)`: a new node at
`(+12, +12)` with a copy of the sample array, the same width and
cc/label/source metadata, and fresh VTrigger/HTrigger copies at identical
positions. Cables are not touched. -/
def duplicateNode (n : WaveformNode) : WaveformNode :=
  let d0 := mkWaveformNode (n.x + 12) (n.y + 12) n.label n.samples (some n.w)
  { d0 with
    cc := n.cc
    sourceDeviceName := n.sourceDeviceName
    vTriggers := n.vTriggers.map (fun t => mkVTrigger t.u)
    hTriggers := n.hTriggers.map (fun h => mkHTrigger h.v) }

/-- The node set and connection set owned by the app controller, with a
counter supplying fresh node identities (JS object identity of newly
constructed nodes). -/
structure Graph where
  nodes : List (ℕ × WaveformNode)
  connections : List Connection
  nextNodeId : ℕ

/-- `Connection.hasNode(node)`: whether either endpoint's owning node is the
given node. -/
def Connection.hasNodeId (c : Connection) (nid : ℕ) : Bool :=
  (match c.portA with | some p => decide (p.nodeId = nid) | none => false) ||
  (match c.portB with | some p => decide (p.nodeId = nid) | none => false)

/-- `_duplicateAndDragNode`: the duplicate is created and added to the node
set (`app.addNode`); no connection is created or rewired. Returns the new
graph and the id of the duplicate. -/
def duplicateInGraph (g : Graph) (n : WaveformNode) : Graph × ℕ :=
  ({ g with
      nodes := g.nodes ++ [(g.nextNodeId, duplicateNode n)]
      nextNodeId := g.nextNodeId + 1 },
    g.nextNodeId)

/-! ## Helper lemmas -/

theorem clamp_le_hi (t lo hi : ℚ) : clamp t lo hi ≤ hi :=
  min_le_right _ _

theorem lo_le_clamp (t lo hi : ℚ) (h : lo ≤ hi) : lo ≤ clamp t lo hi :=
  le_min (le_max_right t lo) h

theorem clamp_of_mem (t lo hi : ℚ) (h1 : lo ≤ t) (h2 : t ≤ hi) :
    clamp t lo hi = t := by
  simp [clamp, max_eq_left h1, min_eq_left h2]

theorem clamp_idem (t lo hi : ℚ) (h : lo ≤ hi) :
    clamp (clamp t lo hi) lo hi = clamp t lo hi :=
  clamp_of_mem _ lo hi (lo_le_clamp t lo hi h) (clamp_le_hi t lo hi)

theorem getD_mem_of_lt (l : List ℚ) (i : ℕ) (h : i < l.length) :
    l.getD i 0 ∈ l := by
  rw [List.getD_eq_getElem?_getD, List.getElem?_eq_getElem h]
  exact List.getElem_mem h

theorem checkCrossing_eq (h : HTrigger) (c : ℚ) :
    h.checkCrossing c =
      (match h.lastValue with
        | none => none
        | some prev =>
          if prev < 1 - h.v ∧ c ≥ 1 - h.v then
            some ⟨.up, 1 - h.v, prev, c⟩
          else if prev > 1 - h.v ∧ c ≤ 1 - h.v then
            some ⟨.down, 1 - h.v, prev, c⟩
          else none,
        { h with lastValue := some c }) := by
  cases hl : h.lastValue with
  | none => simp [HTrigger.checkCrossing, hl]
  | some prev =>
    simp only [HTrigger.checkCrossing, HTrigger.getThresholdLevel, hl]
    split_ifs <;> simp

/-! ## Claim theorems -/

/-- C4: for every HTrigger with position `v`, `checkCrossing(currentValue)`
stores the current value and reports no crossing on the first sample;
otherwise, with `threshold = 1 - v`, it returns an `up` result exactly when
`prev < threshold ≤ curr`, a `down` result exactly when
`prev > threshold ≥ curr`, and no crossing otherwise; in every case
`lastValue` becomes the current value, and a result carries
`{type, threshold, fromValue = prev, toValue = curr}`. -/
theorem c4_checkCrossing (h : HTrigger) (c : ℚ) :
    (h.getThresholdLevel = 1 - h.v) ∧
    ((h.checkCrossing c).2 = { h with lastValue := some c }) ∧
    (h.lastValue = none → (h.checkCrossing c).1 = none) ∧
    ∀ prev, h.lastValue = some prev →
      (((h.checkCrossing c).1 = some ⟨.up, 1 - h.v, prev, c⟩) ↔
        (prev < 1 - h.v ∧ 1 - h.v ≤ c)) ∧
      (((h.checkCrossing c).1 = some ⟨.down, 1 - h.v, prev, c⟩) ↔
        (prev > 1 - h.v ∧ c ≤ 1 - h.v)) ∧
      (((h.checkCrossing c).1 = none) ↔
        (¬(prev < 1 - h.v ∧ 1 - h.v ≤ c) ∧ ¬(prev > 1 - h.v ∧ c ≤ 1 - h.v))) := by
  rw [checkCrossing_eq]
  refine ⟨rfl, rfl, ?_, ?_⟩
  · intro hl
    simp [hl]
  · intro prev hl
    simp only [hl, ge_iff_le]
    by_cases hup : prev < 1 - h.v ∧ 1 - h.v ≤ c
    · have hnd : ¬(prev > 1 - h.v ∧ c ≤ 1 - h.v) := by
        intro hd
        linarith [hup.1, hd.1]
      rw [if_pos hup]
      exact ⟨iff_of_true rfl hup, iff_of_false (by simp) hnd,
        iff_of_false (by simp) (fun hc => hc.1 hup)⟩
    · rw [if_neg hup]
      by_cases hdn : prev > 1 - h.v ∧ c ≤ 1 - h.v
      · rw [if_pos hdn]
        exact ⟨iff_of_false (by simp) hup, iff_of_true rfl hdn,
          iff_of_false (by simp) (fun hc => hc.2 hdn)⟩
      · rw [if_neg hdn]
        exact ⟨iff_of_false (by simp) hup, iff_of_false (by simp) hdn,
          iff_of_true rfl ⟨hup, hdn⟩⟩

/-- Witness for C4 at a concrete trigger: `v = 1/4`, previous value `1/2`,
current value `9/10` detects an up-crossing of threshold `3/4`. -/
theorem c4_checkCrossing_witness :
    ((({ v := 1/4, lastValue := some (1/2) } : HTrigger).checkCrossing
      (9/10)).1 = some ⟨.up, 1 - 1/4, 1/2, 9/10⟩) :=
  (((c4_checkCrossing { v := 1/4, lastValue := some (1/2) }
    (9/10)).2.2.2 (1/2) rfl).1).mpr (by norm_num)

theorem valueAt_expand (samples : List ℚ) (t : ℚ) :
    valueAt samples t =
      samples.getD (⌊clamp t 0 1 * ((samples.length : ℚ) - 1)⌋).toNat 0 +
        (samples.getD
            (min ((⌊clamp t 0 1 * ((samples.length : ℚ) - 1)⌋).toNat + 1)
              (samples.length - 1)) 0 -
          samples.getD (⌊clamp t 0 1 * ((samples.length : ℚ) - 1)⌋).toNat 0) *
          (clamp t 0 1 * ((samples.length : ℚ) - 1) -
            (((⌊clamp t 0 1 * ((samples.length : ℚ) - 1)⌋).toNat : ℕ) : ℚ)) :=
  rfl

theorem valueAt_eq_clamp (samples : List ℚ) (t : ℚ) :
    valueAt samples t = valueAt samples (clamp t 0 1) := by
  rw [valueAt_expand, valueAt_expand, clamp_idem t 0 1 zero_le_one]

theorem floor_pos_le (samples : List ℚ) (t : ℚ) (hlen : 2 ≤ samples.length) :
    (⌊clamp t 0 1 * ((samples.length : ℚ) - 1)⌋).toNat ≤
      samples.length - 1 := by
  have hc0 : 0 ≤ clamp t 0 1 := lo_le_clamp t 0 1 zero_le_one
  have hc1 : clamp t 0 1 ≤ 1 := clamp_le_hi t 0 1
  have hn2 : (2 : ℚ) ≤ (samples.length : ℚ) := by exact_mod_cast hlen
  have hposle : clamp t 0 1 * ((samples.length : ℚ) - 1) ≤
      (samples.length : ℚ) - 1 := by
    calc clamp t 0 1 * ((samples.length : ℚ) - 1)
        ≤ 1 * ((samples.length : ℚ) - 1) :=
          mul_le_mul_of_nonneg_right hc1 (by linarith)
      _ = (samples.length : ℚ) - 1 := one_mul _
  have hcast : ((samples.length : ℚ) - 1) = (((samples.length : ℤ) - 1 : ℤ) : ℚ) := by
    push_cast
    ring
  have hfl : ⌊clamp t 0 1 * ((samples.length : ℚ) - 1)⌋ ≤
      (samples.length : ℤ) - 1 := by
    rw [← Int.floor_intCast (α := ℚ) ((samples.length : ℤ) - 1)]
    exact Int.floor_le_floor (by rw [← hcast]; exact hposle)
  rw [Int.toNat_le]
  omega

theorem valueAt_zero (samples : List ℚ) (_hlen : 2 ≤ samples.length) :
    valueAt samples 0 = samples.getD 0 0 := by
  rw [valueAt_expand, clamp_of_mem 0 0 1 le_rfl zero_le_one]
  norm_num

theorem valueAt_one (samples : List ℚ) (hlen : 2 ≤ samples.length) :
    valueAt samples 1 = samples.getD (samples.length - 1) 0 := by
  rw [valueAt_expand, clamp_of_mem 1 0 1 zero_le_one le_rfl, one_mul]
  have hcast : ((samples.length : ℚ) - 1) = (((samples.length : ℤ) - 1 : ℤ) : ℚ) := by
    push_cast
    ring
  rw [hcast, Int.floor_intCast]
  have htn : ((samples.length : ℤ) - 1).toNat = samples.length - 1 := by omega
  rw [htn]
  have hmin : min (samples.length - 1 + 1) (samples.length - 1) =
      samples.length - 1 := by omega
  rw [hmin]
  have hfz : (((samples.length : ℤ) - 1 : ℤ) : ℚ) - ((samples.length - 1 : ℕ) : ℚ) = 0 := by
    push_cast [Nat.cast_sub (by omega : 1 ≤ samples.length)]
    ring
  rw [hfz]
  ring

theorem valueAt_bounds (samples : List ℚ) (t : ℚ)
    (hlen : 2 ≤ samples.length)
    (hrange : ∀ s ∈ samples, 0 ≤ s ∧ s ≤ 1) :
    0 ≤ valueAt samples t ∧ valueAt samples t ≤ 1 := by
  have hi : (⌊clamp t 0 1 * ((samples.length : ℚ) - 1)⌋).toNat <
      samples.length := by
    have := floor_pos_le samples t hlen
    omega
  have hj : min ((⌊clamp t 0 1 * ((samples.length : ℚ) - 1)⌋).toNat + 1)
      (samples.length - 1) < samples.length := by
    have : samples.length - 1 < samples.length := by omega
    omega
  rw [valueAt_expand]
  set c := clamp t 0 1 with hcdef
  set pos := c * ((samples.length : ℚ) - 1) with hpos
  have hc0 : 0 ≤ c := lo_le_clamp t 0 1 zero_le_one
  have hn2 : (2 : ℚ) ≤ (samples.length : ℚ) := by exact_mod_cast hlen
  have hpos0 : 0 ≤ pos := mul_nonneg hc0 (by linarith)
  have hfl0 : 0 ≤ ⌊pos⌋ := Int.floor_nonneg.mpr hpos0
  have hicast : ((⌊pos⌋.toNat : ℕ) : ℚ) = ((⌊pos⌋ : ℤ) : ℚ) := by
    exact_mod_cast congrArg (fun z : ℤ => (z : ℚ)) (Int.toNat_of_nonneg hfl0)
  have hf0 : 0 ≤ pos - ((⌊pos⌋.toNat : ℕ) : ℚ) := by
    rw [hicast]
    linarith [Int.floor_le pos]
  have hf1 : pos - ((⌊pos⌋.toNat : ℕ) : ℚ) ≤ 1 := by
    rw [hicast]
    linarith [Int.lt_floor_add_one pos]
  obtain ⟨ha0, ha1⟩ := hrange _ (getD_mem_of_lt samples _ hi)
  obtain ⟨hb0, hb1⟩ := hrange _ (getD_mem_of_lt samples _ hj)
  set a := samples.getD (⌊pos⌋.toNat) 0 with hadef
  set b := samples.getD
    (min ((⌊pos⌋.toNat) + 1) (samples.length - 1)) 0 with hbdef
  set f := pos - ((⌊pos⌋.toNat : ℕ) : ℚ) with hfdef
  constructor
  · nlinarith [mul_nonneg ha0 (sub_nonneg.mpr hf1), mul_nonneg hb0 hf0]
  · nlinarith [mul_nonneg (sub_nonneg.mpr ha1) (sub_nonneg.mpr hf1),
      mul_nonneg (sub_nonneg.mpr hb1) hf0]

/-- C10: `valueAt(t)` is total and in-range for every node with `n ≥ 2`
samples in `[0,1]`: any `t` (also outside `[0,1]`) is first clamped, both
interpolation indices stay inside the sample array, the result lies in
`[0,1]`, and the endpoints return the first and last sample. -/
theorem c10_valueAt (samples : List ℚ) (t : ℚ)
    (hlen : 2 ≤ samples.length)
    (hrange : ∀ s ∈ samples, 0 ≤ s ∧ s ≤ 1) :
    valueAt samples t = valueAt samples (clamp t 0 1) ∧
    (⌊clamp t 0 1 * ((samples.length : ℚ) - 1)⌋).toNat < samples.length ∧
    min ((⌊clamp t 0 1 * ((samples.length : ℚ) - 1)⌋).toNat + 1)
      (samples.length - 1) < samples.length ∧
    0 ≤ valueAt samples t ∧ valueAt samples t ≤ 1 ∧
    valueAt samples 0 = samples.getD 0 0 ∧
    valueAt samples 1 = samples.getD (samples.length - 1) 0 := by
  have hi : (⌊clamp t 0 1 * ((samples.length : ℚ) - 1)⌋).toNat <
      samples.length := by
    have := floor_pos_le samples t hlen
    omega
  refine ⟨valueAt_eq_clamp samples t, hi, by omega,
    (valueAt_bounds samples t hlen hrange).1,
    (valueAt_bounds samples t hlen hrange).2,
    valueAt_zero samples hlen, valueAt_one samples hlen⟩

/-- Witness for C10 at a concrete sample array and an out-of-range input. -/
theorem c10_valueAt_witness :
    valueAt [0, 1/2, 1] 7 = valueAt [0, 1/2, 1] (clamp 7 0 1) ∧
    (⌊clamp 7 0 1 * (((3:ℕ) : ℚ) - 1)⌋).toNat < 3 ∧
    min ((⌊clamp 7 0 1 * (((3:ℕ) : ℚ) - 1)⌋).toNat + 1) (3 - 1) < 3 ∧
    0 ≤ valueAt [0, 1/2, 1] 7 ∧ valueAt [0, 1/2, 1] 7 ≤ 1 ∧
    valueAt [0, 1/2, 1] 0 = [0, (1:ℚ)/2, 1].getD 0 0 ∧
    valueAt [0, 1/2, 1] 1 = [0, (1:ℚ)/2, 1].getD (3 - 1) 0 := by
  have h := c10_valueAt [0, 1/2, 1] 7 (by norm_num)
    (by
      intro s hs
      simp at hs
      rcases hs with h1 | h1 | h1 <;> rw [h1] <;> norm_num)
  simpa using h

/-- C3 counterexample: on a node that is already playing with
`playProgress = 1/2`, `startPlayback()` returns immediately
(`if (this.playing) return`), so `playProgress` stays `1/2 ≠ 0` — the claim
that a call while playing restarts the run and sets `playProgress = 0` is
false. -/
theorem c3_counterexample :
    (WaveformNode.startPlayback
      { mkWaveformNode 0 0 "CC 1" [0, 1] none with
          playing := true, playProgress := 1/2 }).playProgress = 1/2 ∧
    ((1 : ℚ)/2) ≠ 0 := by
  constructor
  · rfl
  · norm_num

/-- C3 (amended): `startPlayback()` is a no-op while playing (it does not
restart); from idle it sets `playProgress = 0`, `startProgress = 0`,
`remainingDurationMs = durationMs`, `lastCCSent = -1`, clears the VTrigger
per-run fire memory and resets every HTrigger's crossing memory. -/
theorem c3_startPlayback (n : WaveformNode) :
    (n.playing = true → n.startPlayback = n) ∧
    (n.playing = false →
      (n.startPlayback).playing = true ∧
      (n.startPlayback).playProgress = 0 ∧
      (n.startPlayback).startProgress = 0 ∧
      (n.startPlayback).remainingDurationMs = n.durationMs ∧
      (n.startPlayback).lastCCSent = -1 ∧
      (n.startPlayback).vTriggersHit = ∅ ∧
      ∀ h ∈ (n.startPlayback).hTriggers, h.lastValue = none) := by
  constructor
  · intro hp
    simp [WaveformNode.startPlayback, hp]
  · intro hp
    have hne : n.startPlayback =
        { n with
          playing := true
          playProgress := 0
          startProgress := 0
          remainingDurationMs := n.durationMs
          lastCCSent := -1
          vTriggersHit := ∅
          hTriggers := n.hTriggers.map HTrigger.resetCrossingState } := by
      simp [WaveformNode.startPlayback, baseStartPlayback, hp]
    rw [hne]
    refine ⟨rfl, rfl, rfl, rfl, rfl, rfl, ?_⟩
    intro h hmem
    simp only [List.mem_map] at hmem
    obtain ⟨h0, _, rfl⟩ := hmem
    rfl

/-- Witness for C3 at concrete nodes: both the playing no-op branch and the
idle reset branch, evaluated. -/
theorem c3_startPlayback_witness :
    (WaveformNode.startPlayback
      { mkWaveformNode 0 0 "CC 1" [0, 1] none with playing := true } =
      { mkWaveformNode 0 0 "CC 1" [0, 1] none with playing := true }) ∧
    ((mkWaveformNode 0 0 "CC 1" [0, 1] none).startPlayback).playProgress = 0 :=
  ⟨(c3_startPlayback _).1 rfl, ((c3_startPlayback _).2 rfl).2.1⟩

/-- C5: `startPlaybackFromU(u)` sets
`startProgress = playProgress = clamp(u,0,1)`,
`remainingDurationMs = max(1, (1 - clamp(u,0,1)) · durationMs)`, pre-marks
exactly the VTrigger indices whose position is `≤ clamp(u,0,1)` as already
fired, and resets every HTrigger's crossing memory. -/
theorem c5_startPlaybackFromU (n : WaveformNode) (u : ℚ) :
    (n.startPlaybackFromU u).playProgress = clamp u 0 1 ∧
    (n.startPlaybackFromU u).startProgress = clamp u 0 1 ∧
    (n.startPlaybackFromU u).remainingDurationMs =
      max 1 ((1 - clamp u 0 1) * n.durationMs) ∧
    (∀ i : ℕ, i ∈ (n.startPlaybackFromU u).vTriggersHit ↔
      (i < n.vTriggers.length ∧ (n.vTriggers.getD i ⟨0⟩).u ≤ clamp u 0 1)) ∧
    (∀ h ∈ (n.startPlaybackFromU u).hTriggers, h.lastValue = none) := by
  have hne : n.startPlaybackFromU u =
      { n with
        playing := true
        playProgress := clamp u 0 1
        startProgress := clamp u 0 1
        remainingDurationMs := max 1 ((1 - clamp u 0 1) * n.durationMs)
        lastCCSent := -1
        vTriggersHit :=
          (Finset.range n.vTriggers.length).filter
            (fun i => (n.vTriggers.getD i ⟨0⟩).u ≤ clamp u 0 1)
        hTriggers := n.hTriggers.map HTrigger.resetCrossingState } := by
    cases hp : n.playing <;>
      simp [WaveformNode.startPlaybackFromU, stopPlayback, baseStartPlayback,
        hp]
  rw [hne]
  refine ⟨rfl, rfl, rfl, ?_, ?_⟩
  · intro i
    simp [Finset.mem_filter, Finset.mem_range]
  · intro h hmem
    simp only [List.mem_map] at hmem
    obtain ⟨h0, _, rfl⟩ := hmem
    rfl

/-- Witness for C5 at a concrete node with triggers on both sides of the
start position. -/
theorem c5_startPlaybackFromU_witness :
    (({ mkWaveformNode 0 0 "CC 1" [0, 1] (some 200) with
        vTriggers := [⟨1/4⟩, ⟨3/4⟩] } : WaveformNode).startPlaybackFromU
          (1/2)).playProgress = clamp (1/2) 0 1 ∧
    (0 ∈ (({ mkWaveformNode 0 0 "CC 1" [0, 1] (some 200) with
        vTriggers := [⟨1/4⟩, ⟨3/4⟩] } : WaveformNode).startPlaybackFromU
          (1/2)).vTriggersHit ↔
      (0 < 2 ∧ (([⟨1/4⟩, ⟨3/4⟩] : List VTrigger).getD 0 ⟨0⟩).u ≤
        clamp (1/2) 0 1)) :=
  ⟨(c5_startPlaybackFromU _ _).1, by
    have h := (c5_startPlaybackFromU
      { mkWaveformNode 0 0 "CC 1" [0, 1] (some 200) with
        vTriggers := [⟨1/4⟩, ⟨3/4⟩] } (1/2)).2.2.2.1 0
    simpa using h⟩

/-- C2: `propagateFireEvent(sourcePort)` never fires the target unless the
source resolves to role `out` and the other endpoint resolves to role `in`
(otherwise it returns without any state change); when both hold and the
target is a `Port` of type `input` owned by a VTrigger, the target node
receives `startPlaybackFromU(trigger.u)`. -/
theorem propagateFireEvent_eq (c : Connection) (p : PortR) :
    c.propagateFireEvent p =
      (if getPortRole p = ResolvedRole.rout then
        match c.getOtherPort p with
        | none => none
        | some target =>
          if getPortRole target = ResolvedRole.rin then some target.fire
          else none
      else none) := by
  unfold Connection.propagateFireEvent
  by_cases hr : getPortRole p = ResolvedRole.rout
  · rw [if_neg (by simp [hr]), if_pos hr]
    rcases c.getOtherPort p with _ | target
    · rfl
    · by_cases ht : getPortRole target = ResolvedRole.rin
      · simp [ht]
      · simp [ht]
  · rw [if_pos (by simp [hr]), if_neg hr]

theorem getOtherPort_cases (c : Connection) (p target : PortR)
    (h : c.getOtherPort p = some target) :
    (c.portA = some p ∧ c.portB = some target) ∨
    (c.portB = some p ∧ c.portA = some target) := by
  unfold Connection.getOtherPort at h
  by_cases h1 : c.portA = some p
  · rw [if_pos h1] at h
    exact Or.inl ⟨h1, h⟩
  · rw [if_neg h1] at h
    by_cases h2 : c.portB = some p
    · rw [if_pos h2] at h
      exact Or.inr ⟨h2, h⟩
    · rw [if_neg h2] at h
      exact absurd h (by simp)

theorem c2_propagateFireEvent (c : Connection) (p : PortR) :
    (∀ a, c.propagateFireEvent p = some a →
      getPortRole p = ResolvedRole.rout ∧
      ∃ target, c.getOtherPort p = some target ∧
        getPortRole target = ResolvedRole.rin) ∧
    (∀ target, getPortRole p = ResolvedRole.rout →
      c.getOtherPort p = some target →
      getPortRole target = ResolvedRole.rin →
      target.typ = some PortType.input → target.ownerKind = OwnerKind.vtrig →
      c.propagateFireEvent p = some (FireAction.startFromU target.trigU)) := by
  constructor
  · intro a ha
    rw [propagateFireEvent_eq] at ha
    by_cases hr : getPortRole p = ResolvedRole.rout
    · refine ⟨hr, ?_⟩
      rw [if_pos hr] at ha
      rcases hgo : c.getOtherPort p with _ | target
      · rw [hgo] at ha
        exact absurd ha (by simp)
      · rw [hgo] at ha
        by_cases htr : getPortRole target = ResolvedRole.rin
        · exact ⟨target, rfl, htr⟩
        · simp only [htr, if_false] at ha
          exact absurd ha (by simp)
    · rw [if_neg hr] at ha
      exact absurd ha (by simp)
  · intro target hr hgo htr htyp howner
    rw [propagateFireEvent_eq, if_pos hr, hgo]
    simp only [htr, if_true]
    have hfire : target.fire = FireAction.startFromU target.trigU := by
      unfold PortR.fire
      rw [if_neg (by simp [htyp]), if_neg (by simp [htyp]),
        if_pos ⟨htyp, howner⟩]
    rw [hfire]

/-- Witness for C2: an `out` output port wired to a VTrigger `input` port at
`u = 1` propagates `startPlaybackFromU(1)`. -/
theorem c2_propagateFireEvent_witness :
    (Connection.propagateFireEvent
      { portA := some ⟨0, 0, .vtrig, some .output, some .rout, none, 0⟩
        portB := some ⟨1, 1, .vtrig, some .input, some .rin, none, 1⟩ }
      ⟨0, 0, .vtrig, some .output, some .rout, none, 0⟩) =
      some (FireAction.startFromU 1) :=
  (c2_propagateFireEvent _ _).2
    ⟨1, 1, .vtrig, some .input, some .rin, none, 1⟩
    (by decide) (by decide) (by decide) (by decide) (by decide)

/-- C8: a connection is judged valid exactly when both ports exist, they are
not the same port, and the resolved roles are one `in` and one `out` in
either order; the constructor stores any pair without throwing; and an
invalid connection never propagates a fire event. -/
theorem c8_connection_validity (c : Connection) :
    (c.isValid = true ↔
      ∃ pa pb, c.portA = some pa ∧ c.portB = some pb ∧ pa ≠ pb ∧
        ((getPortRole pa = ResolvedRole.rin ∧
          getPortRole pb = ResolvedRole.rout) ∨
         (getPortRole pa = ResolvedRole.rout ∧
          getPortRole pb = ResolvedRole.rin))) ∧
    (mkConnection c.portA c.portB = c) ∧
    (c.isValid = false → ∀ p : PortR, c.propagateFireEvent p = none) := by
  obtain ⟨a, b⟩ := c
  refine ⟨?_, rfl, ?_⟩
  · cases a with
    | none => simp [Connection.isValid]
    | some pa =>
      cases b with
      | none => simp [Connection.isValid]
      | some pb =>
        by_cases hab : pa = pb
        · subst hab
          simp [Connection.isValid]
        · simp [Connection.isValid, hab]
  · intro hinv p
    by_cases hr : getPortRole p = ResolvedRole.rout
    case neg =>
      simp [propagateFireEvent_eq, hr]
    case pos =>
      have htgt : ∀ target,
          Connection.getOtherPort ⟨a, b⟩ p = some target →
          getPortRole target ≠ ResolvedRole.rin := by
        intro target hgo hin
        rcases getOtherPort_cases _ p target hgo with ⟨h1, h2⟩ | ⟨h1, h2⟩
        · have h1' : a = some p := h1
          have h2' : b = some target := h2
          by_cases hpt : p = target
          · rw [← hpt] at hin
            rw [hin] at hr
            exact absurd hr (by simp)
          · rw [h1', h2'] at hinv
            have hv : Connection.isValid ⟨some p, some target⟩ = true := by
              simp [Connection.isValid, hpt, hr, hin]
            rw [hv] at hinv
            exact absurd hinv (by simp)
        · have h1' : b = some p := h1
          have h2' : a = some target := h2
          by_cases hpt : p = target
          · rw [← hpt] at hin
            rw [hin] at hr
            exact absurd hr (by simp)
          · rw [h1', h2'] at hinv
            have hv : Connection.isValid ⟨some target, some p⟩ = true := by
              have hne : target ≠ p := fun he => hpt he.symm
              simp [Connection.isValid, hne, hr, hin]
            rw [hv] at hinv
            exact absurd hinv (by simp)
      rw [propagateFireEvent_eq, if_pos hr]
      rcases hgo : Connection.getOtherPort ⟨a, b⟩ p with _ | target
      · rfl
      · simp [htgt target hgo]

/-- Witness for C8 at a concrete invalid `out`/`out` connection: invalid and
propagation from either endpoint is a no-op. -/
theorem c8_connection_validity_witness :
    (Connection.isValid
      { portA := some ⟨0, 0, .htrig, some .up, some .rout, none, 0⟩
        portB := some ⟨1, 1, .vtrig, some .output, some .rout, none, 0⟩ }
      = false) ∧
    (Connection.propagateFireEvent
      { portA := some ⟨0, 0, .htrig, some .up, some .rout, none, 0⟩
        portB := some ⟨1, 1, .vtrig, some .output, some .rout, none, 0⟩ }
      ⟨0, 0, .htrig, some .up, some .rout, none, 0⟩ = none) := by
  have hinv : Connection.isValid
      { portA := some ⟨0, 0, .htrig, some .up, some .rout, none, 0⟩
        portB := some ⟨1, 1, .vtrig, some .output, some .rout, none, 0⟩ }
      = false := by decide
  exact ⟨hinv,
    (c8_connection_validity _).2.2 hinv
      ⟨0, 0, .htrig, some .up, some .rout, none, 0⟩⟩

theorem updateVTriggersAux_cons (p : ℚ) (k : ℕ) (t : VTrigger)
    (ts : List VTrigger) (s : Finset ℕ) :
    updateVTriggersAux p k (t :: ts) s =
      if p ≥ t.u then
        (if k ∈ s then updateVTriggersAux p (k + 1) ts s
         else
          (k :: (updateVTriggersAux p (k + 1) ts (insert k s)).1,
            (updateVTriggersAux p (k + 1) ts (insert k s)).2))
      else updateVTriggersAux p (k + 1) ts (s.erase k) := by
  simp only [updateVTriggersAux]
  split_ifs <;> simp

theorem updateVTriggersAux_below (p : ℚ) (ts : List VTrigger) (i : ℕ) :
    ∀ (k : ℕ) (s : Finset ℕ), i < k →
      ((updateVTriggersAux p k ts s).1.count i = 0) ∧
      (i ∈ (updateVTriggersAux p k ts s).2 ↔ i ∈ s) := by
  induction ts with
  | nil =>
    intro k s _
    simp [updateVTriggersAux]
  | cons t ts ih =>
    intro k s hik
    rw [updateVTriggersAux_cons]
    have hki : ¬(k = i) := by omega
    have hik' : ¬(i = k) := by omega
    by_cases hpu : p ≥ t.u
    · rw [if_pos hpu]
      by_cases hks : k ∈ s
      · rw [if_pos hks]
        exact ih (k + 1) s (by omega)
      · rw [if_neg hks]
        have h2 := ih (k + 1) (insert k s) (by omega)
        constructor
        · simp [List.count_cons, h2.1, hki]
        · rw [h2.2, Finset.mem_insert]
          simp [hik']
    · rw [if_neg hpu]
      have h2 := ih (k + 1) (s.erase k) (by omega)
      refine ⟨h2.1, ?_⟩
      rw [h2.2, Finset.mem_erase]
      simp [hik']

theorem updateVTriggersAux_spec (p : ℚ) (ts : List VTrigger) (i : ℕ)
    (t : VTrigger) :
    ∀ (k : ℕ) (s : Finset ℕ), k ≤ i → ts[i - k]? = some t →
      ((updateVTriggersAux p k ts s).1.count i =
        if t.u ≤ p ∧ i ∉ s then 1 else 0) ∧
      (i ∈ (updateVTriggersAux p k ts s).2 ↔ t.u ≤ p) := by
  induction ts with
  | nil =>
    intro k s _ hget
    simp at hget
  | cons t0 ts ih =>
    intro k s hki hget
    rw [updateVTriggersAux_cons]
    by_cases hik : i = k
    · subst hik
      have hsub : i - i = 0 := by omega
      rw [hsub] at hget
      simp only [List.getElem?_cons_zero, Option.some.injEq] at hget
      subst hget
      by_cases hpu : p ≥ t0.u
      · rw [if_pos hpu]
        by_cases hks : i ∈ s
        · rw [if_pos hks]
          have hb := updateVTriggersAux_below p ts i (i + 1) s (by omega)
          refine ⟨?_, ?_⟩
          · rw [hb.1, if_neg (by simp [hks])]
          · rw [hb.2]
            simp [hks, ge_iff_le.mp hpu]
        · rw [if_neg hks]
          have hb := updateVTriggersAux_below p ts i (i + 1) (insert i s)
            (by omega)
          refine ⟨?_, ?_⟩
          · simp [List.count_cons, hb.1, hks, ge_iff_le.mp hpu]
          · rw [hb.2]
            simp [ge_iff_le.mp hpu]
      · rw [if_neg hpu]
        have hb := updateVTriggersAux_below p ts i (i + 1) (s.erase i)
          (by omega)
        have hnle : ¬t0.u ≤ p := by
          simpa [ge_iff_le] using hpu
        refine ⟨?_, ?_⟩
        · rw [hb.1, if_neg (by simp [hnle])]
        · rw [hb.2]
          simp [hnle]
    · have hklt : k < i := by omega
      have hget2 : ts[i - (k + 1)]? = some t := by
        have : i - k = (i - (k + 1)) + 1 := by omega
        rw [this] at hget
        simpa using hget
      have hki2 : ¬(k = i) := fun h => hik h.symm
      have hmemins : i ∈ insert k s ↔ i ∈ s := by
        rw [Finset.mem_insert]
        simp [hik]
      have hmemers : i ∈ s.erase k ↔ i ∈ s := by
        rw [Finset.mem_erase]
        simp [hik]
      by_cases hpu : p ≥ t0.u
      · rw [if_pos hpu]
        by_cases hks : k ∈ s
        · rw [if_pos hks]
          exact ih (k + 1) s (by omega) hget2
        · rw [if_neg hks]
          have h2 := ih (k + 1) (insert k s) (by omega) hget2
          constructor
          · rw [List.count_cons, h2.1]
            simp only [hmemins]
            simp [hki2]
          · exact h2.2
      · rw [if_neg hpu]
        have h2 := ih (k + 1) (s.erase k) (by omega) hget2
        constructor
        · rw [h2.1]
          simp only [hmemers]
        · exact h2.2

theorem updateTriggerPorts_preserves (n : WaveformNode) :
    (updateTriggerPorts n).node.playing = n.playing ∧
    (updateTriggerPorts n).node.vTriggers = n.vTriggers := by
  unfold updateTriggerPorts
  split_ifs <;> simp

theorem updateTriggerPorts_spec (n : WaveformNode) (i : ℕ) (t : VTrigger)
    (hp : n.playing = true) (hget : n.vTriggers[i]? = some t) :
    ((updateTriggerPorts n).vFired.count i =
      if t.u ≤ n.playProgress ∧ i ∉ n.vTriggersHit then 1 else 0) ∧
    (i ∈ (updateTriggerPorts n).node.vTriggersHit ↔
      t.u ≤ n.playProgress) := by
  have hs := updateVTriggersAux_spec n.playProgress n.vTriggers i t 0
    n.vTriggersHit (by omega) (by simpa using hget)
  unfold updateTriggerPorts
  rw [if_pos (by simp [hp])]
  exact hs

theorem countFires_cons (i : ℕ) (l : List ℕ) (ls : List (List ℕ)) :
    countFires i (l :: ls) = l.count i + countFires i ls := by
  simp [countFires]

theorem playbackRun_node_eq (n : WaveformNode) (ps : List ℚ) :
    (playbackRun n ps).2.playing = n.playing ∧
    (playbackRun n ps).2.vTriggers = n.vTriggers := by
  induction ps generalizing n with
  | nil => simp [playbackRun]
  | cons p ps ih =>
    simp only [playbackRun]
    have h1 := updateTriggerPorts_preserves { n with playProgress := p }
    have h2 := ih (updateTriggerPorts { n with playProgress := p }).node
    exact ⟨by rw [h2.1, h1.1], by rw [h2.2, h1.2]⟩

theorem run_count_zero (ps : List ℚ) :
    ∀ (n : WaveformNode) (i : ℕ) (t : VTrigger), n.playing = true →
      n.vTriggers[i]? = some t → i ∈ n.vTriggersHit →
      (∀ q ∈ ps, t.u ≤ q) →
      countFires i (playbackRun n ps).1 = 0 := by
  induction ps with
  | nil =>
    intro n i t _ _ _ _
    simp [playbackRun, countFires]
  | cons p ps ih =>
    intro n i t hp hget hin hall
    simp only [playbackRun, countFires_cons]
    set n' : WaveformNode := { n with playProgress := p } with hn'
    have hp' : n'.playing = true := hp
    have hget' : n'.vTriggers[i]? = some t := hget
    have hspec := updateTriggerPorts_spec n' i t hp' hget'
    have hcount : (updateTriggerPorts n').vFired.count i = 0 := by
      rw [hspec.1, if_neg]
      intro hc
      exact hc.2 hin
    have hle : t.u ≤ p := hall p (by simp)
    have hmem : i ∈ (updateTriggerPorts n').node.vTriggersHit := by
      rw [hspec.2]
      exact hle
    have hpres := updateTriggerPorts_preserves n'
    rw [hcount]
    have hrec := ih (updateTriggerPorts n').node i t
      (by rw [hpres.1]; exact hp)
      (by rw [hpres.2]; exact hget)
      hmem
      (fun q hq => hall q (by simp [hq]))
    omega

theorem run_count_once (ps : List ℚ) :
    ∀ (n : WaveformNode) (i : ℕ) (t : VTrigger), n.playing = true →
      n.vTriggers[i]? = some t → i ∉ n.vTriggersHit →
      ps.Sorted (· ≤ ·) → (∃ q ∈ ps, t.u ≤ q) →
      countFires i (playbackRun n ps).1 = 1 := by
  induction ps with
  | nil =>
    intro n i t _ _ _ _ hcross
    simp at hcross
  | cons p ps ih =>
    intro n i t hp hget hnotin hsort hcross
    simp only [playbackRun, countFires_cons]
    set n' : WaveformNode := { n with playProgress := p } with hn'
    have hp' : n'.playing = true := hp
    have hget' : n'.vTriggers[i]? = some t := hget
    have hspec := updateTriggerPorts_spec n' i t hp' hget'
    have hpres := updateTriggerPorts_preserves n'
    by_cases hle : t.u ≤ p
    · have hcount : (updateTriggerPorts n').vFired.count i = 1 := by
        rw [hspec.1, if_pos ⟨hle, hnotin⟩]
      have hmem : i ∈ (updateTriggerPorts n').node.vTriggersHit := by
        rw [hspec.2]
        exact hle
      have hall : ∀ q ∈ ps, t.u ≤ q := by
        intro q hq
        exact le_trans hle ((List.sorted_cons.mp hsort).1 q hq)
      have hz := run_count_zero ps (updateTriggerPorts n').node i t
        (by rw [hpres.1]; exact hp)
        (by rw [hpres.2]; exact hget)
        hmem hall
      omega
    · have hcount : (updateTriggerPorts n').vFired.count i = 0 := by
        rw [hspec.1, if_neg (fun hc => hle hc.1)]
      have hmem : i ∉ (updateTriggerPorts n').node.vTriggersHit := by
        rw [hspec.2]
        exact hle
      obtain ⟨q, hq, hqle⟩ := hcross
      have hqps : q ∈ ps := by
        rcases List.mem_cons.mp hq with h | h
        · exact absurd (h ▸ hqle) hle
        · exact h
      have hrec := ih (updateTriggerPorts n').node i t
        (by rw [hpres.1]; exact hp)
        (by rw [hpres.2]; exact hget)
        hmem
        (List.sorted_cons.mp hsort).2
        ⟨q, hqps, hqle⟩
      omega

theorem startPlayback_state (n : WaveformNode) (hidle : n.playing = false) :
    (n.startPlayback).playing = true ∧
    (n.startPlayback).vTriggersHit = ∅ ∧
    (n.startPlayback).vTriggers = n.vTriggers := by
  simp [WaveformNode.startPlayback, baseStartPlayback, hidle]

/-- C1: for a VTrigger at position `u` on a playing node, within one playback
run whose `playProgress` advances monotonically and crosses `u`,
`fireOutputPort` is invoked exactly once (fired indices are remembered in the
per-run set, re-armed only when the playhead is before the trigger); a second
run started afterwards fires it exactly once more. -/
theorem c1_vtrigger_single_fire (n : WaveformNode) (i : ℕ) (t : VTrigger)
    (ps1 ps2 : List ℚ)
    (hidle : n.playing = false)
    (hget : n.vTriggers[i]? = some t)
    (h1sort : ps1.Sorted (· ≤ ·)) (h2sort : ps2.Sorted (· ≤ ·))
    (h1cross : ∃ q ∈ ps1, t.u ≤ q) (h2cross : ∃ q ∈ ps2, t.u ≤ q) :
    countFires i (playbackRun n.startPlayback ps1).1 = 1 ∧
    countFires i
      (playbackRun
        (WaveformNode.startPlayback
          (stopPlayback (playbackRun n.startPlayback ps1).2)) ps2).1 = 1 := by
  obtain ⟨hp1, hs1, ht1⟩ := startPlayback_state n hidle
  constructor
  · exact run_count_once ps1 n.startPlayback i t hp1
      (by rw [ht1]; exact hget) (by rw [hs1]; simp) h1sort h1cross
  · set m := (playbackRun n.startPlayback ps1).2 with hm
    have hrun := playbackRun_node_eq n.startPlayback ps1
    have hmstop : (stopPlayback m).playing = false := by
      simp only [stopPlayback]
      split_ifs <;> simp_all
    have hmv : (stopPlayback m).vTriggers = n.vTriggers := by
      have : (stopPlayback m).vTriggers = m.vTriggers := by
        simp only [stopPlayback]
        split_ifs <;> rfl
      rw [this, ← hm] at *
      rw [hrun.2, ht1]
    obtain ⟨hp2, hs2, ht2⟩ := startPlayback_state (stopPlayback m) hmstop
    exact run_count_once ps2 _ i t hp2
      (by rw [ht2, hmv]; exact hget) (by rw [hs2]; simp) h2sort h2cross

/-- Witness for C1: a node with one trigger at `u = 1`, run twice over the
monotone progress sequence `[0, 1]`, fires it once per run. -/
theorem c1_vtrigger_single_fire_witness :
    countFires 0
      (playbackRun
        (WaveformNode.startPlayback
          { mkWaveformNode 0 0 "CC 1" [0, 1] (some 200) with
              vTriggers := [⟨1⟩] }) [0, 1]).1 = 1 ∧
    countFires 0
      (playbackRun
        (WaveformNode.startPlayback
          (stopPlayback
            (playbackRun
              (WaveformNode.startPlayback
                { mkWaveformNode 0 0 "CC 1" [0, 1] (some 200) with
                    vTriggers := [⟨1⟩] }) [0, 1]).2)) [0, 1]).1 = 1 :=
  c1_vtrigger_single_fire _ 0 ⟨1⟩ [0, 1] [0, 1] rfl rfl
    (by simp) (by simp)
    ⟨1, by simp⟩ ⟨1, by simp⟩

theorem splitAtU_some (n : WaveformNode) (u : ℚ) (r : SplitResult)
    (hres : n.splitAtU u = some r) :
    r.splitU = clamp u 0 1 ∧ 2/100 < r.splitU ∧ r.splitU < 1 - 2/100 ∧
    r.leftNode.vTriggers = (splitVTriggersAux r.splitU 0 n.vTriggers).1 ∧
    r.rightNode.vTriggers = (splitVTriggersAux r.splitU 0 n.vTriggers).2.1 ∧
    r.leftNode.hTriggers = (splitHTriggersAux 0 n.hTriggers).1 ∧
    r.rightNode.hTriggers = (splitHTriggersAux 0 n.hTriggers).2.1 ∧
    r.portMap = (splitVTriggersAux r.splitU 0 n.vTriggers).2.2 ++
      (splitHTriggersAux 0 n.hTriggers).2.2 ∧
    r.leftNode.samples = (splitSamplesAtU n.samples r.splitU).1 ∧
    r.rightNode.samples = (splitSamplesAtU n.samples r.splitU).2 ∧
    r.leftNode.w = max 2 ((jsRound (n.w * r.splitU) : ℤ) : ℚ) ∧
    r.rightNode.w =
      max 2 (n.w - max 2 ((jsRound (n.w * r.splitU) : ℤ) : ℚ)) := by
  unfold WaveformNode.splitAtU at hres
  by_cases hcond : clamp u 0 1 ≤ 2/100 ∨ clamp u 0 1 ≥ 1 - 2/100
  · rw [if_pos hcond] at hres
    exact absurd hres (by simp)
  · rw [if_neg hcond] at hres
    push_neg at hcond
    injection hres with heq
    subst heq
    have hlw : max 2 ((jsRound (n.w * clamp u 0 1) : ℤ) : ℚ) ≠ 0 := by
      have h2 : (2 : ℚ) ≤ max 2 ((jsRound (n.w * clamp u 0 1) : ℤ) : ℚ) :=
        le_max_left _ _
      intro h0
      rw [h0] at h2
      norm_num at h2
    have hrw : max 2 (n.w - max 2 ((jsRound (n.w * clamp u 0 1) : ℤ) : ℚ)) ≠
        0 := by
      have h2 : (2 : ℚ) ≤
          max 2 (n.w - max 2 ((jsRound (n.w * clamp u 0 1) : ℤ) : ℚ)) :=
        le_max_left _ _
      intro h0
      rw [h0] at h2
      norm_num at h2
    refine ⟨rfl, hcond.1, hcond.2,
      rfl, rfl, rfl, rfl, rfl, rfl, rfl, ?_, ?_⟩
    · show (mkWaveformNode n.x n.y n.label
        (splitSamplesAtU n.samples (clamp u 0 1)).1
        (some (max 2 ((jsRound (n.w * clamp u 0 1) : ℤ) : ℚ)))).w = _
      simp [mkWaveformNode, hlw]
    · show (mkWaveformNode
        (n.x + max 2 ((jsRound (n.w * clamp u 0 1) : ℤ) : ℚ)) n.y n.label
        (splitSamplesAtU n.samples (clamp u 0 1)).2
        (some (max 2 (n.w - max 2 ((jsRound (n.w * clamp u 0 1) : ℤ) : ℚ))))).w
          = _
      simp [mkWaveformNode, hrw]

theorem splitSamplesAtU_eq (samples : List ℚ) (u : ℚ)
    (hlen : 2 ≤ samples.length) (hu0 : 0 ≤ u) (hu1 : u ≤ 1) :
    splitSamplesAtU samples u =
      (samples.take ((⌊u * ((samples.length : ℚ) - 1)⌋).toNat + 1) ++
        [valueAt samples u],
       valueAt samples u ::
        samples.drop
          (min ((⌊u * ((samples.length : ℚ) - 1)⌋).toNat + 1)
            (samples.length - 1))) := by
  have hmax : max 2 samples.length = samples.length := max_eq_right hlen
  have hcl : clamp u 0 1 = u := clamp_of_mem u 0 1 hu0 hu1
  have hval : valueAt samples u =
      samples.getD (⌊u * ((samples.length : ℚ) - 1)⌋).toNat 0 +
        (samples.getD
            (min ((⌊u * ((samples.length : ℚ) - 1)⌋).toNat + 1)
              (samples.length - 1)) 0 -
          samples.getD (⌊u * ((samples.length : ℚ) - 1)⌋).toNat 0) *
          (u * ((samples.length : ℚ) - 1) -
            (((⌊u * ((samples.length : ℚ) - 1)⌋).toNat : ℕ) : ℚ)) := by
    rw [valueAt_expand, hcl]
  have hile : (⌊u * ((samples.length : ℚ) - 1)⌋).toNat ≤
      samples.length - 1 := by
    have := floor_pos_le samples u hlen
    rw [hcl] at this
    exact this
  unfold splitSamplesAtU
  simp only [hmax, hcl]
  rw [← hval]
  have hl2 : ¬((samples.take
      ((⌊u * ((samples.length : ℚ) - 1)⌋).toNat + 1) ++
        [valueAt samples u]).length < 2) := by
    rw [List.length_append, List.length_take]
    simp only [List.length_singleton]
    omega
  have hr2 : ¬((valueAt samples u ::
      samples.drop
        (min ((⌊u * ((samples.length : ℚ) - 1)⌋).toNat + 1)
          (samples.length - 1))).length < 2) := by
    rw [List.length_cons, List.length_drop]
    omega
  rw [if_neg hl2, if_neg hr2]

theorem splitSamplesAtU_spec (samples : List ℚ) (u : ℚ)
    (hlen : 2 ≤ samples.length) (hu0 : 0 ≤ u) (hu1 : u ≤ 1) :
    (splitSamplesAtU samples u).1.getLastD 0 = valueAt samples u ∧
    (splitSamplesAtU samples u).2.headD 0 = valueAt samples u ∧
    2 ≤ (splitSamplesAtU samples u).1.length ∧
    2 ≤ (splitSamplesAtU samples u).2.length := by
  rw [splitSamplesAtU_eq samples u hlen hu0 hu1]
  have hile : (⌊u * ((samples.length : ℚ) - 1)⌋).toNat ≤
      samples.length - 1 := by
    have h1 := floor_pos_le samples u hlen
    rw [clamp_of_mem u 0 1 hu0 hu1] at h1
    exact h1
  refine ⟨?_, rfl, ?_, ?_⟩
  · rw [List.getLastD_concat]
  · rw [List.length_append, List.length_take]
    simp only [List.length_singleton]
    omega
  · rw [List.length_cons, List.length_drop]
    omega

/-- C6 counterexample: node of width `W = 10` split at `u = 1/10` (accepted:
`0.02 < 0.1 < 0.98`) yields `leftNode.w = max(2, round(10·0.1)) = 2`, while
`round(W·u) = 1` — so `leftNode.w = round(W·u)` fails (and at `u = 9/10` the
widths would be `9` and `2`, breaking the exact sum). -/
theorem c6_counterexample :
    ((WaveformNode.splitAtU
        (mkWaveformNode 0 0 "CC 1" [0, 1] (some 10))
        (1/10)).map (fun r => r.leftNode.w)) = some 2 ∧
    ((jsRound ((10 : ℚ) * clamp (1/10) 0 1) : ℤ) : ℚ) = 1 ∧
    (2 : ℚ) ≠ 1 := by
  have hcl : clamp (1/10 : ℚ) 0 1 = 1/10 :=
    clamp_of_mem _ 0 1 (by norm_num) (by norm_num)
  refine ⟨?_, ?_, by norm_num⟩
  · rcases hres : WaveformNode.splitAtU
        (mkWaveformNode 0 0 "CC 1" [0, 1] (some 10))
        (1/10) with _ | r
    · exfalso
      unfold WaveformNode.splitAtU at hres
      rw [if_neg] at hres
      · exact Option.noConfusion hres
      · rw [hcl]
        push_neg
        constructor <;> norm_num
    · have h := splitAtU_some _ _ r hres
      have hw : (mkWaveformNode 0 0 "CC 1" [0, 1] (some 10)).w = 10 := by
        simp [mkWaveformNode]
      have hround : jsRound ((10 : ℚ) * (1/10)) = 1 := by
        unfold jsRound
        norm_num
      show some r.leftNode.w = some 2
      rw [h.2.2.2.2.2.2.2.2.2.2.1, h.1, hcl, hw, hround]
      norm_num
  · rw [hcl]
    unfold jsRound
    norm_num

/-- C6 (amended): for an accepted split, `leftNode.w = max(2, round(W·u))`
and `rightNode.w = max(2, W − leftNode.w)`; the widths sum to `W` exactly
whenever `2 ≤ round(W·u) ≤ W − 2` (so the `max` guards are inactive); the
waveforms are always continuous at the seam — the last left sample equals the
first right sample, both being the value interpolated at the split point —
and each half has at least 2 samples. -/
theorem c6_split_conservation (n : WaveformNode) (u : ℚ) (r : SplitResult)
    (hlen : 2 ≤ n.samples.length)
    (hres : n.splitAtU u = some r) :
    r.leftNode.w = max 2 ((jsRound (n.w * r.splitU) : ℤ) : ℚ) ∧
    r.rightNode.w = max 2 (n.w - r.leftNode.w) ∧
    ((2 : ℚ) ≤ ((jsRound (n.w * r.splitU) : ℤ) : ℚ) →
      ((jsRound (n.w * r.splitU) : ℤ) : ℚ) ≤ n.w - 2 →
      r.leftNode.w + r.rightNode.w = n.w) ∧
    r.leftNode.samples.getLastD 0 = valueAt n.samples r.splitU ∧
    r.rightNode.samples.headD 0 = valueAt n.samples r.splitU ∧
    r.leftNode.samples.getLastD 0 = r.rightNode.samples.headD 0 ∧
    2 ≤ r.leftNode.samples.length ∧ 2 ≤ r.rightNode.samples.length := by
  obtain ⟨hsu, h1, h2, _, _, _, _, _, hlsamp, hrsamp, hlw, hrw⟩ :=
    splitAtU_some n u r hres
  have hu0 : 0 ≤ r.splitU := by linarith
  have hu1 : r.splitU ≤ 1 := by linarith
  have hsp := splitSamplesAtU_spec n.samples r.splitU hlen hu0 hu1
  refine ⟨hlw, ?_, ?_, ?_, ?_, ?_, ?_, ?_⟩
  · rw [hlw]
    exact hrw
  · intro ha hb
    rw [hlw, hrw]
    rw [max_eq_right ha]
    rw [max_eq_right (show (2 : ℚ) ≤
      n.w - ((jsRound (n.w * r.splitU) : ℤ) : ℚ) by linarith)]
    ring
  · rw [hlsamp]
    exact hsp.1
  · rw [hrsamp]
    exact hsp.2.1
  · rw [hlsamp, hrsamp, hsp.1, hsp.2.1]
  · rw [hlsamp]
    exact hsp.2.2.1
  · rw [hrsamp]
    exact hsp.2.2.2

/-- Witness for C6: splitting a width-200 node at `u = 1/2` gives halves
whose widths sum to 200. -/
theorem c6_split_conservation_witness :
    ∃ r, (mkWaveformNode 0 0 "CC 1" [0, 1] (some 200)).splitAtU (1/2) =
      some r ∧ r.leftNode.w + r.rightNode.w = 200 := by
  have hcl : clamp (1/2 : ℚ) 0 1 = 1/2 :=
    clamp_of_mem _ 0 1 (by norm_num) (by norm_num)
  rcases hres : (mkWaveformNode 0 0 "CC 1" [0, 1] (some 200)).splitAtU (1/2)
    with _ | r
  · exfalso
    unfold WaveformNode.splitAtU at hres
    rw [if_neg] at hres
    · exact Option.noConfusion hres
    · rw [hcl]
      push_neg
      constructor <;> norm_num
  · refine ⟨r, rfl, ?_⟩
    have hw : (mkWaveformNode 0 0 "CC 1" [0, 1] (some 200)).w = 200 := by
      simp [mkWaveformNode]
    have h := c6_split_conservation _ _ r
      (by simp [mkWaveformNode]) hres
    have hsu : r.splitU = 1/2 := by
      rw [(splitAtU_some _ _ r hres).1, hcl]
    have hjval : ((jsRound
        ((mkWaveformNode 0 0 "CC 1" [0, 1] (some 200)).w * r.splitU) : ℤ) :
          ℚ) = 100 := by
      rw [hw, hsu]
      unfold jsRound
      norm_num
    have hfin := h.2.2.1 (by rw [hjval]; norm_num)
      (by rw [hjval, hw]; norm_num)
    rw [hw] at hfin
    exact hfin

theorem mkVTrigger_one : mkVTrigger 1 = ⟨1⟩ := by
  simp [mkVTrigger, clamp]

theorem mkVTrigger_zero : mkVTrigger 0 = ⟨0⟩ := by
  simp [mkVTrigger, clamp]

theorem splitVTriggersAux_lists (nu : ℚ) (hnu0 : 0 < nu) (hnu1 : nu < 1)
    (ts : List VTrigger) :
    ∀ k : ℕ, (∀ t ∈ ts, 0 ≤ t.u ∧ t.u ≤ 1) →
      (splitVTriggersAux nu k ts).1 =
        ts.filterMap (fun t =>
          if t.u < nu then some ⟨t.u / nu⟩
          else if t.u = nu then some ⟨1⟩ else none) ∧
      (splitVTriggersAux nu k ts).2.1 =
        ts.filterMap (fun t =>
          if nu < t.u then some ⟨(t.u - nu) / (1 - nu)⟩
          else if t.u = nu then some ⟨0⟩ else none) := by
  induction ts with
  | nil =>
    intro k _
    simp [splitVTriggersAux]
  | cons t ts ih =>
    intro k hb
    have hbt := hb t (by simp)
    have hbts : ∀ x ∈ ts, 0 ≤ x.u ∧ x.u ≤ 1 := fun x hx => hb x (by simp [hx])
    have ihk := ih (k + 1) hbts
    by_cases h1 : t.u < nu
    · have hnz : ¬(nu = 0) := by linarith
      have hdiv0 : 0 ≤ t.u / nu := div_nonneg hbt.1 (le_of_lt hnu0)
      have hdiv1 : t.u / nu ≤ 1 := (div_le_one hnu0).mpr (le_of_lt h1)
      have hnt : mkVTrigger (clamp (if nu = 0 then 0 else t.u / nu) 0 1) =
          (⟨t.u / nu⟩ : VTrigger) := by
        rw [if_neg hnz]
        unfold mkVTrigger
        rw [clamp_idem _ _ _ zero_le_one, clamp_of_mem _ _ _ hdiv0 hdiv1]
      simp only [splitVTriggersAux, if_pos h1]
      refine ⟨?_, ?_⟩
      · rw [List.filterMap_cons]
        simp only [if_pos h1]
        rw [ihk.1, hnt]
      · rw [List.filterMap_cons]
        have hn1 : ¬(nu < t.u) := by linarith
        have hn2 : ¬(t.u = nu) := by linarith
        simp only [if_neg hn1, if_neg hn2]
        exact ihk.2
    · by_cases h2 : t.u > nu
      · have hden : 0 < 1 - nu := by linarith
        have hdiv0 : 0 ≤ (t.u - nu) / (1 - nu) :=
          div_nonneg (by linarith) (le_of_lt hden)
        have hdiv1 : (t.u - nu) / (1 - nu) ≤ 1 :=
          (div_le_one hden).mpr (by linarith [hbt.2])
        have hnt : mkVTrigger (clamp ((t.u - nu) / (1 - nu)) 0 1) =
            (⟨(t.u - nu) / (1 - nu)⟩ : VTrigger) := by
          unfold mkVTrigger
          rw [clamp_idem _ _ _ zero_le_one, clamp_of_mem _ _ _ hdiv0 hdiv1]
        simp only [splitVTriggersAux, if_neg h1, if_pos h2]
        refine ⟨?_, ?_⟩
        · rw [List.filterMap_cons]
          have hn2 : ¬(t.u = nu) := by linarith
          simp only [if_neg h1, if_neg hn2]
          exact ihk.1
        · rw [List.filterMap_cons]
          simp only [if_pos h2]
          rw [ihk.2, hnt]
      · have heq : t.u = nu := by linarith
        simp only [splitVTriggersAux, if_neg h1, if_neg h2]
        refine ⟨?_, ?_⟩
        · rw [List.filterMap_cons]
          simp only [if_neg h1, if_pos heq]
          rw [ihk.1, mkVTrigger_one]
        · rw [List.filterMap_cons]
          have hn1 : ¬(nu < t.u) := by linarith
          simp only [if_neg hn1, if_pos heq]
          rw [ihk.2, mkVTrigger_zero]

theorem splitVTriggersAux_boundary (nu : ℚ) (ts : List VTrigger) :
    ∀ (k j : ℕ) (t : VTrigger), ts[j]? = some t → t.u = nu →
      (⟨k + j, .pInput, .toBothV (mkVTrigger 1) (mkVTrigger 0)⟩ : PMEntry) ∈
        (splitVTriggersAux nu k ts).2.2 ∧
      (⟨k + j, .pOutput, .toBothV (mkVTrigger 1) (mkVTrigger 0)⟩ : PMEntry) ∈
        (splitVTriggersAux nu k ts).2.2 := by
  induction ts with
  | nil =>
    intro k j t h _
    simp at h
  | cons t0 ts ih =>
    intro k j t hget hu
    cases j with
    | zero =>
      simp only [List.getElem?_cons_zero, Option.some.injEq] at hget
      subst hget
      have h1 : ¬(t0.u < nu) := by simp [hu]
      have h2 : ¬(t0.u > nu) := by simp [hu]
      simp only [splitVTriggersAux, if_neg h1, if_neg h2]
      constructor <;> simp
    | succ j' =>
      have hget' : ts[j']? = some t := by simpa using hget
      have hmem := ih (k + 1) j' t hget' hu
      have harith : k + (j' + 1) = (k + 1) + j' := by omega
      rw [harith]
      simp only [splitVTriggersAux]
      split_ifs <;>
        exact ⟨by simp [hmem.1], by simp [hmem.2]⟩

theorem splitHTriggersAux_lists (hs : List HTrigger) :
    ∀ k : ℕ,
      (splitHTriggersAux k hs).1 = hs.map (fun h => mkHTrigger h.v) ∧
      (splitHTriggersAux k hs).2.1 = hs.map (fun h => mkHTrigger h.v) := by
  induction hs with
  | nil =>
    intro k
    simp [splitHTriggersAux]
  | cons h hs ih =>
    intro k
    simp only [splitHTriggersAux, List.map_cons]
    exact ⟨by rw [(ih (k + 1)).1], by rw [(ih (k + 1)).2]⟩

/-- C7: for an accepted split at `splitU`, a VTrigger at `p < splitU` appears
only on the left node rescaled to `p/splitU`, one at `p > splitU` only on the
right rescaled to `(p−splitU)/(1−splitU)`, and one at exactly `splitU` is
duplicated — at `u = 1.0` on the left and `u = 0.0` on the right, with both
of its old ports mapped to both new ports in the returned port map; every
HTrigger appears on both nodes with unchanged `v`. -/
theorem c7_split_triggers (n : WaveformNode) (u : ℚ) (r : SplitResult)
    (hres : n.splitAtU u = some r)
    (hvb : ∀ t ∈ n.vTriggers, 0 ≤ t.u ∧ t.u ≤ 1)
    (hhb : ∀ h ∈ n.hTriggers, 0 ≤ h.v ∧ h.v ≤ 1) :
    r.leftNode.vTriggers = n.vTriggers.filterMap (fun t =>
        if t.u < r.splitU then some ⟨t.u / r.splitU⟩
        else if t.u = r.splitU then some ⟨1⟩ else none) ∧
    r.rightNode.vTriggers = n.vTriggers.filterMap (fun t =>
        if r.splitU < t.u then some ⟨(t.u - r.splitU) / (1 - r.splitU)⟩
        else if t.u = r.splitU then some ⟨0⟩ else none) ∧
    r.leftNode.hTriggers = n.hTriggers.map (fun h => ⟨h.v, none⟩) ∧
    r.rightNode.hTriggers = n.hTriggers.map (fun h => ⟨h.v, none⟩) ∧
    (∀ (j : ℕ) (t : VTrigger), n.vTriggers[j]? = some t → t.u = r.splitU →
      (⟨j, .pInput, .toBothV ⟨1⟩ ⟨0⟩⟩ : PMEntry) ∈ r.portMap ∧
      (⟨j, .pOutput, .toBothV ⟨1⟩ ⟨0⟩⟩ : PMEntry) ∈ r.portMap) := by
  obtain ⟨hsu, h1, h2, hlv, hrv, hlh, hrh, hpm, _, _, _, _⟩ :=
    splitAtU_some n u r hres
  have hnu0 : 0 < r.splitU := by linarith
  have hnu1 : r.splitU < 1 := by linarith
  have hv := splitVTriggersAux_lists r.splitU hnu0 hnu1 n.vTriggers 0 hvb
  have hh := splitHTriggersAux_lists n.hTriggers 0
  have hmapH : n.hTriggers.map (fun h => mkHTrigger h.v) =
      n.hTriggers.map (fun h => (⟨h.v, none⟩ : HTrigger)) := by
    apply List.map_congr_left
    intro h hmem
    unfold mkHTrigger
    rw [clamp_of_mem _ _ _ (hhb h hmem).1 (hhb h hmem).2]
  refine ⟨by rw [hlv, hv.1], by rw [hrv, hv.2],
    by rw [hlh, hh.1, hmapH], by rw [hrh, hh.2, hmapH], ?_⟩
  intro j t hget hu
  have hb := splitVTriggersAux_boundary r.splitU n.vTriggers 0 j t hget hu
  rw [zero_add, mkVTrigger_one, mkVTrigger_zero] at hb
  rw [hpm]
  exact ⟨List.mem_append_left _ hb.1, List.mem_append_left _ hb.2⟩

/-- Witness for C7: a node with one VTrigger exactly at the split point and
one HTrigger; the trigger is duplicated to `u=1` (left) and `u=0` (right),
both its ports map to both copies, and the HTrigger lands on both halves. -/
theorem c7_split_triggers_witness :
    ∃ r, ({ mkWaveformNode 0 0 "CC 1" [0, 1] (some 200) with
        vTriggers := [⟨1/2⟩],
        hTriggers := [⟨1/4, none⟩] } : WaveformNode).splitAtU (1/2) =
          some r ∧
      r.leftNode.vTriggers = [⟨1⟩] ∧
      r.rightNode.vTriggers = [⟨0⟩] ∧
      r.leftNode.hTriggers = [⟨1/4, none⟩] ∧
      r.rightNode.hTriggers = [⟨1/4, none⟩] ∧
      (⟨0, .pInput, .toBothV ⟨1⟩ ⟨0⟩⟩ : PMEntry) ∈ r.portMap ∧
      (⟨0, .pOutput, .toBothV ⟨1⟩ ⟨0⟩⟩ : PMEntry) ∈ r.portMap := by
  have hcl : clamp (1/2 : ℚ) 0 1 = 1/2 :=
    clamp_of_mem _ 0 1 (by norm_num) (by norm_num)
  rcases hres : ({ mkWaveformNode 0 0 "CC 1" [0, 1] (some 200) with
      vTriggers := [⟨1/2⟩],
      hTriggers := [⟨1/4, none⟩] } : WaveformNode).splitAtU (1/2) with _ | r
  · exfalso
    unfold WaveformNode.splitAtU at hres
    rw [if_neg] at hres
    · exact Option.noConfusion hres
    · rw [hcl]
      push_neg
      constructor <;> norm_num
  · have hsu : r.splitU = 1/2 := by
      rw [(splitAtU_some _ _ r hres).1]
      exact hcl
    have h := c7_split_triggers _ _ r hres
      (by
        intro t ht
        simp at ht
        rw [ht]
        norm_num)
      (by
        intro hh hmem
        simp at hmem
        rw [hmem]
        norm_num)
    refine ⟨r, rfl, ?_, ?_, ?_, ?_, ?_, ?_⟩
    · rw [h.1, hsu]
      show List.filterMap (fun t : VTrigger =>
        if t.u < 1/2 then some (⟨t.u / (1/2)⟩ : VTrigger)
        else if t.u = 1/2 then some (⟨1⟩ : VTrigger) else none)
          [(⟨1/2⟩ : VTrigger)] = [(⟨1⟩ : VTrigger)]
      norm_num [List.filterMap_cons]
    · rw [h.2.1, hsu]
      show List.filterMap (fun t : VTrigger =>
        if 1/2 < t.u then some (⟨(t.u - 1/2) / (1 - 1/2)⟩ : VTrigger)
        else if t.u = 1/2 then some (⟨0⟩ : VTrigger) else none)
          [(⟨1/2⟩ : VTrigger)] = [(⟨0⟩ : VTrigger)]
      norm_num [List.filterMap_cons]
    · rw [h.2.2.1]
      rfl
    · rw [h.2.2.2.1]
      rfl
    · exact (h.2.2.2.2 0 ⟨1/2⟩ rfl (by rw [hsu])).1
    · exact (h.2.2.2.2 0 ⟨1/2⟩ rfl (by rw [hsu])).2

/-- C9: duplicating a node adds a copy that participates in zero connections
— the graph's connection set is unchanged and no existing connection touches
the fresh node — while the copy carries an equal sample array, the same
cc/label/sourceDeviceName metadata, and the same number of V/H triggers at
identical positions (fresh trigger/port records owned by the new node). -/
theorem c9_duplicate_isolation (g : Graph) (n : WaveformNode)
    (hvb : ∀ t ∈ n.vTriggers, 0 ≤ t.u ∧ t.u ≤ 1)
    (hhb : ∀ h ∈ n.hTriggers, 0 ≤ h.v ∧ h.v ≤ 1)
    (hwf : ∀ c ∈ g.connections, ∀ p : PortR,
      (c.portA = some p ∨ c.portB = some p) → p.nodeId < g.nextNodeId) :
    (duplicateInGraph g n).1.connections = g.connections ∧
    (∀ c ∈ g.connections,
      Connection.hasNodeId c (duplicateInGraph g n).2 = false) ∧
    (duplicateNode n).samples = n.samples ∧
    (duplicateNode n).cc = n.cc ∧
    (duplicateNode n).label = n.label ∧
    (duplicateNode n).sourceDeviceName = n.sourceDeviceName ∧
    (duplicateNode n).vTriggers.length = n.vTriggers.length ∧
    (duplicateNode n).hTriggers.length = n.hTriggers.length ∧
    (duplicateNode n).vTriggers.map VTrigger.u =
      n.vTriggers.map VTrigger.u ∧
    (duplicateNode n).hTriggers.map HTrigger.v =
      n.hTriggers.map HTrigger.v ∧
    (∀ h ∈ (duplicateNode n).hTriggers, h.lastValue = none) := by
  refine ⟨rfl, ?_, rfl, rfl, rfl, rfl, by simp [duplicateNode],
    by simp [duplicateNode], ?_, ?_, ?_⟩
  · intro c hc
    have hA : ∀ p : PortR, c.portA = some p → ¬(p.nodeId = g.nextNodeId) :=
      fun p hp => Nat.ne_of_lt (hwf c hc p (Or.inl hp))
    have hB : ∀ p : PortR, c.portB = some p → ¬(p.nodeId = g.nextNodeId) :=
      fun p hp => Nat.ne_of_lt (hwf c hc p (Or.inr hp))
    show Connection.hasNodeId c g.nextNodeId = false
    unfold Connection.hasNodeId
    rcases hpa : c.portA with _ | pa <;> rcases hpb : c.portB with _ | pb <;>
      simp_all
  · show (n.vTriggers.map (fun t => mkVTrigger t.u)).map VTrigger.u =
      n.vTriggers.map VTrigger.u
    rw [List.map_map]
    apply List.map_congr_left
    intro t ht
    show (mkVTrigger t.u).u = t.u
    unfold mkVTrigger
    exact clamp_of_mem _ _ _ (hvb t ht).1 (hvb t ht).2
  · show (n.hTriggers.map (fun h => mkHTrigger h.v)).map HTrigger.v =
      n.hTriggers.map HTrigger.v
    rw [List.map_map]
    apply List.map_congr_left
    intro h hmem
    show (mkHTrigger h.v).v = h.v
    unfold mkHTrigger
    exact clamp_of_mem _ _ _ (hhb h hmem).1 (hhb h hmem).2
  · intro h hmem
    show h.lastValue = none
    have : h ∈ n.hTriggers.map (fun x => mkHTrigger x.v) := hmem
    obtain ⟨x, _, rfl⟩ := List.mem_map.mp this
    rfl

/-- Witness for C9: duplicating a node with one VTrigger and one HTrigger in
a one-connection graph leaves the connection set unchanged and untouched. -/
theorem c9_duplicate_isolation_witness :
    (duplicateInGraph
      ⟨[], [{ portA := some ⟨0, 0, .htrig, some .up, some .rout, none, 0⟩,
              portB := some ⟨1, 1, .vtrig, some .input, some .rin, none, 0⟩ }],
        2⟩
      { mkWaveformNode 0 0 "CC 1" [0, 1] (some 200) with
          vTriggers := [⟨1/2⟩], hTriggers := [⟨1/4, none⟩] }).1.connections =
      [{ portA := some ⟨0, 0, .htrig, some .up, some .rout, none, 0⟩,
         portB := some ⟨1, 1, .vtrig, some .input, some .rin, none, 0⟩ }] ∧
    (duplicateNode
      { mkWaveformNode 0 0 "CC 1" [0, 1] (some 200) with
          vTriggers := [⟨1/2⟩], hTriggers := [⟨1/4, none⟩] }).vTriggers.map
            VTrigger.u = [1/2] := by
  have h := c9_duplicate_isolation
    ⟨[], [{ portA := some ⟨0, 0, .htrig, some .up, some .rout, none, 0⟩,
            portB := some ⟨1, 1, .vtrig, some .input, some .rin, none, 0⟩ }],
      2⟩
    { mkWaveformNode 0 0 "CC 1" [0, 1] (some 200) with
        vTriggers := [⟨1/2⟩], hTriggers := [⟨1/4, none⟩] }
    (by
      intro t ht
      simp at ht
      rw [ht]
      norm_num)
    (by
      intro x hx
      simp at hx
      rw [hx]
      norm_num)
    (by
      intro c hc p hp
      simp at hc
      subst hc
      rcases hp with hp | hp <;>
        · simp at hp
          subst hp
          norm_num)
  refine ⟨h.1, ?_⟩
  rw [h.2.2.2.2.2.2.2.2.1]
  rfl

end MidiViz
